import Mathlib

/-!
Verification of the Mastermind ("mestersind") terminal game core.

The definitions below are a shallow embedding of `src/main.rs`:
the `Color` and `Hint` enums, the scoring function `get_hints`
(two passes over the guess with a `used` marker array, followed by a
stable sort putting `CorrectlyPlaced` first), the equality test
`is_correct`, the input validator `validate_guess`, the string-to-color
conversion `get_colors` / `string_to_color` (the Rust panic branch is
modelled as `Option.none`), and the game-session loop of `main`
(attempt counter, history, early exit on a correct guess).

Strings are modelled as `List Char`; Rust's `split(" ")` is
`splitOnChar ' '` and `split_whitespace` is `splitWS`.
-/

namespace Mestersind

/-- The colors supported by the game (`enum Color` in the source);
`None` is the "no peg" wildcard value. -/
inductive Color where
  | Red
  | Brown
  | Yellow
  | Green
  | Black
  | White
  | Orange
  | Blue
  | None
deriving DecidableEq, Fintype, Repr

/-- The two kinds of hints (`enum Hint` in the source).  The derived
Rust `Ord` makes `CorrectlyPlaced` the smaller one. -/
inductive Hint where
  | CorrectlyPlaced
  | CorrectColorButWrong
deriving DecidableEq, Fintype, Repr

/-- Boolean comparison on hints matching the derived Rust `Ord`:
`CorrectlyPlaced <= CorrectColorButWrong`. -/
def hintLE : Hint → Hint → Bool
  | Hint.CorrectlyPlaced, _ => true
  | Hint.CorrectColorButWrong, Hint.CorrectColorButWrong => true
  | Hint.CorrectColorButWrong, Hint.CorrectlyPlaced => false

/-- First loop of `get_hints`: walk the guess with its index `i`; on
`guess[i] == code[i]` push a `CorrectlyPlaced` hint and set `used[i]`. -/
def pass1Go (code : List Color) : Nat → List Color → List Hint → List Bool → List Hint × List Bool
  | _, [], hints, used => (hints, used)
  | i, color :: rest, hints, used =>
    if color = code.getD i Color.None then
      pass1Go code (i + 1) rest (hints ++ [Hint.CorrectlyPlaced]) (used.set i true)
    else
      pass1Go code (i + 1) rest hints used

/-- The `zip(code, used) … filter … next()` search of the second loop:
index of the first not-yet-used code position holding `color`. -/
def findFirst (color : Color) : List Color → List Bool → Option Nat
  | c :: cs, u :: us =>
    if c = color ∧ u = false then some 0
    else (findFirst color cs us).map (· + 1)
  | _, _ => none

/-- Second loop of `get_hints`: positions that are exact matches are
skipped (`continue`); otherwise the first unused code position with the
guessed color, if any, is consumed and a `CorrectColorButWrong` hint
is pushed. -/
def pass2Go (code : List Color) : Nat → List Color → List Hint → List Bool → List Hint × List Bool
  | _, [], hints, used => (hints, used)
  | i, color :: rest, hints, used =>
    if color = code.getD i Color.None then
      pass2Go code (i + 1) rest hints used
    else
      match findFirst color code used with
      | some j => pass2Go code (i + 1) rest (hints ++ [Hint.CorrectColorButWrong]) (used.set j true)
      | none => pass2Go code (i + 1) rest hints used

/-- Embedding of `get_hints` from the source: pass 1, pass 2 (sharing the `used`
marker array initialised to `[false; 5]`), then `hints.sort()`. -/
def get_hints (guess code : List Color) : List Hint :=
  let p1 := pass1Go code 0 guess [] (List.replicate 5 false)
  let p2 := pass2Go code 0 guess p1.1 p1.2
  p2.1.mergeSort hintLE

/-- Embedding of `is_correct` from the source: false on a length mismatch, else the
fold of positional equality over the zip of the two codes. -/
def is_correct (guess code : List Color) : Bool :=
  if guess.length ≠ code.length then false
  else (guess.zip code).foldl (fun acc p => decide (p.1 = p.2) && acc) true

/-- Embedding of `string_to_color` from the source; the `panic!` branch for an
unrecognized name is modelled as `none`. -/
def string_to_color (input : List Char) : Option Color :=
  match input.map Char.toLower with
  | ['r', 'e', 'd'] => some Color.Red
  | ['b', 'r', 'o', 'w', 'n'] => some Color.Brown
  | ['y', 'e', 'l', 'l', 'o', 'w'] => some Color.Yellow
  | ['g', 'r', 'e', 'e', 'n'] => some Color.Green
  | ['b', 'l', 'a', 'c', 'k'] => some Color.Black
  | ['w', 'h', 'i', 't', 'e'] => some Color.White
  | ['o', 'r', 'a', 'n', 'g', 'e'] => some Color.Orange
  | ['b', 'l', 'u', 'e'] => some Color.Blue
  | ['n', 'o', 'n', 'e'] => some Color.None
  | _ => none

/-- Rust's `str::split(" ")`: split a character list at every single
occurrence of `c`, keeping empty pieces. -/
def splitOnChar (c : Char) : List Char → List (List Char)
  | [] => [[]]
  | x :: xs =>
    if x = c then [] :: splitOnChar c xs
    else
      match splitOnChar c xs with
      | [] => [[x]]
      | t :: ts => (x :: t) :: ts

/-- Rust's `str::split_whitespace`: maximal runs of non-whitespace
characters, whitespace discarded. -/
def splitWS : List Char → List (List Char)
  | [] => []
  | c :: cs =>
    if c.isWhitespace then splitWS cs
    else
      (c :: cs.takeWhile (fun x => !x.isWhitespace)) ::
        splitWS (cs.dropWhile (fun x => !x.isWhitespace))
termination_by l => l.length
decreasing_by
  all_goals
    simp only [List.length_cons]
    first
      | omega
      | exact Nat.lt_succ_of_le ((List.dropWhile_sublist _).length_le)

/-- Collect the per-token conversions; any failing token (a Rust panic)
makes the whole conversion fail. -/
def colorsOfTokens : List (List Char) → Option (List Color)
  | [] => some []
  | t :: ts =>
    match string_to_color t, colorsOfTokens ts with
    | some c, some cs => some (c :: cs)
    | _, _ => none

/-- Embedding of `get_colors` from the source: split on whitespace and map
`string_to_color` over the tokens. -/
def get_colors (input : List Char) : Option (List Color) :=
  colorsOfTokens (splitWS input)

/-- The `COLOR_SET` constant of `validate_guess`. -/
def COLOR_SET : List (List Char) :=
  [['r', 'e', 'd'], ['b', 'r', 'o', 'w', 'n'], ['y', 'e', 'l', 'l', 'o', 'w'],
   ['g', 'r', 'e', 'e', 'n'], ['b', 'l', 'a', 'c', 'k'], ['w', 'h', 'i', 't', 'e'],
   ['o', 'r', 'a', 'n', 'g', 'e'], ['b', 'l', 'u', 'e'], ['n', 'o', 'n', 'e']]

/-- Embedding of `validate_guess` from the source: split on a single space, demand
exactly 5 pieces, and fold membership of every piece in `COLOR_SET`. -/
def validate_guess (guess : List Char) : Bool :=
  let colors := splitOnChar ' ' guess
  if colors.length ≠ 5 then false
  else colors.foldl (fun acc color => decide (color ∈ COLOR_SET) && acc) true

/-- The attempt budget `n = 12` of `main`. -/
def sessionN : Nat := 12

/-- The mutable state of the loop in `main`: the attempt counter, the
history of scored guesses, and whether the game was won (`break`). -/
structure SessionState where
  attempts : Nat
  history : List (List Color × List Hint)
  done : Bool
deriving DecidableEq, Repr

/-- The state at the top of the loop in `main`. -/
def initialSession : SessionState := ⟨0, [], false⟩

/-- One iteration of the loop in `main`, fed one (already trimmed and
lowercased) input line.  A terminated session (won, or budget used up:
the `while attempts < n` guard) ignores further input; an invalid
guess hits `continue` and changes nothing; a valid guess bumps the
attempt counter, wins on `is_correct`, and is otherwise scored and
appended to the history. -/
def stepSession (code : List Color) (s : SessionState) (input : List Char) : SessionState :=
  if s.done || decide (sessionN ≤ s.attempts) then s
  else if !validate_guess input then s
  else
    match get_colors input with
    | Option.none => s
    | some guess =>
      if is_correct guess code then
        { attempts := s.attempts + 1, history := s.history, done := true }
      else
        { attempts := s.attempts + 1,
          history := s.history ++ [(guess, get_hints guess code)],
          done := false }

/-- Run the loop of `main` over a whole list of input lines. -/
def runSession (code : List Color) (inputs : List (List Char)) : SessionState :=
  inputs.foldl (stepSession code) initialSession

/-- Number of positions where guess and code agree. -/
def exactCount (guess code : List Color) : Nat :=
  ((guess.zip code).filter fun p => decide (p.1 = p.2)).length

/-- Occurrences of color `c` in the guess at positions that are not
exact matches. -/
def nonExactGuessCount (c : Color) (guess code : List Color) : Nat :=
  ((guess.zip code).filter fun p => decide (p.1 = c) && !decide (p.1 = p.2)).length

/-- Occurrences of color `c` in the code at positions that are not
exact matches. -/
def nonExactCodeCount (c : Color) (guess code : List Color) : Nat :=
  ((guess.zip code).filter fun p => decide (p.2 = c) && !decide (p.1 = p.2)).length

/-- Unused code positions currently holding color `c`. -/
def slots (c : Color) (code : List Color) (used : List Bool) : Nat :=
  ((code.zip used).filter fun p => decide (p.1 = c) && !p.2).length

/-- Indexed count of exact matches of a guess suffix against the code,
mirroring the index bookkeeping of `pass1Go`. -/
def exactFrom (code : List Color) : Nat → List Color → Nat
  | _, [] => 0
  | i, color :: rest =>
    (if color = code.getD i Color.None then 1 else 0) + exactFrom code (i + 1) rest

/-- Indexed count of non-exact positions of a guess suffix holding
color `c`, mirroring the index bookkeeping of `pass2Go`. -/
def gcntFrom (code : List Color) (c : Color) : Nat → List Color → Nat
  | _, [] => 0
  | i, color :: rest =>
    (if color = c ∧ ¬color = code.getD i Color.None then 1 else 0) + gcntFrom code c (i + 1) rest

/-- Indexed count of non-exact positions of a guess suffix. -/
def nonExactFrom (code : List Color) : Nat → List Color → Nat
  | _, [] => 0
  | i, color :: rest =>
    (if color = code.getD i Color.None then 0 else 1) + nonExactFrom code (i + 1) rest

/-- The `used` array produced by pass 1 on full-length inputs:
one flag per position, true exactly at the exact matches. -/
def exactMask (guess code : List Color) : List Bool :=
  (guess.zip code).map fun p => decide (p.1 = p.2)

/-- Join tokens with single spaces: the shape of every string accepted
by `validate_guess`. -/
def joinTokens : List (List Char) → List Char
  | [] => []
  | [t] => t
  | t :: ts => t ++ ' ' :: joinTokens ts

/-- The hint comparison as a relation, for the sort lemmas. -/
def hintR (a b : Hint) : Prop := hintLE a b = true

instance : DecidableRel hintR := fun _ _ => instDecidableEqBool _ _

instance : IsTotal Hint hintR := ⟨by decide⟩

instance : IsTrans Hint hintR := ⟨by decide⟩

instance : IsAntisymm Hint hintR := ⟨by decide⟩

/-- The marker array left behind by pass 1, described as a function of
the slice of the array the remaining loop iterations may touch. -/
def maskFrom (code : List Color) : Nat → List Color → List Bool → List Bool
  | _, [], u => u
  | i, color :: rest, u =>
    (u.headD false || decide (color = code.getD i Color.None)) :: maskFrom code (i + 1) rest u.tail

theorem pass1Go_fst (code : List Color) (g : List Color) :
    ∀ (i : Nat) (h : List Hint) (u : List Bool),
      (pass1Go code i g h u).1 = h ++ List.replicate (exactFrom code i g) Hint.CorrectlyPlaced := by
  induction g with
  | nil => intro i h u; simp [pass1Go, exactFrom]
  | cons color rest ih =>
    intro i h u
    by_cases hc : color = code.getD i Color.None
    · simp only [pass1Go, exactFrom, if_pos hc]
      rw [ih]
      simp [Nat.add_comm 1, List.replicate_succ, List.append_assoc]
    · simp only [pass1Go, exactFrom, if_neg hc]
      rw [ih]
      simp

theorem pass1Go_snd_length (code : List Color) (g : List Color) :
    ∀ (i : Nat) (h : List Hint) (u : List Bool),
      (pass1Go code i g h u).2.length = u.length := by
  induction g with
  | nil => intro i h u; simp [pass1Go]
  | cons color rest ih =>
    intro i h u
    by_cases hc : color = code.getD i Color.None
    · simp only [pass1Go, if_pos hc]
      rw [ih]
      simp
    · simp only [pass1Go, if_neg hc]
      rw [ih]

theorem pass1Go_snd (code : List Color) (g : List Color) :
    ∀ (pre u : List Bool) (h : List Hint), g.length ≤ u.length →
      (pass1Go code pre.length g h (pre ++ u)).2 = pre ++ maskFrom code pre.length g u := by
  induction g with
  | nil => intro pre u h _; simp [pass1Go, maskFrom]
  | cons color rest ih =>
    intro pre u h hlen
    match u with
    | [] => simp at hlen
    | b :: u' =>
      by_cases hc : color = code.getD pre.length Color.None
      · simp only [pass1Go, if_pos hc]
        have hset : (pre ++ b :: u').set pre.length true = (pre ++ [true]) ++ u' := by
          simp [List.set_append]
        rw [hset]
        have hpre : pre.length + 1 = (pre ++ [true]).length := by simp
        rw [hpre, ih (pre ++ [true]) u' _ (by simpa using Nat.le_of_succ_le_succ (by simpa using hlen))]
        simp [maskFrom, hc, List.append_assoc]
      · simp only [pass1Go, if_neg hc]
        have hsplit : pre ++ b :: u' = (pre ++ [b]) ++ u' := by simp
        rw [hsplit]
        have hpre : pre.length + 1 = (pre ++ [b]).length := by simp
        rw [hpre, ih (pre ++ [b]) u' _ (by simpa using Nat.le_of_succ_le_succ (by simpa using hlen))]
        have hdec : decide (color = code.getD pre.length Color.None) = false :=
          decide_eq_false_iff_not.mpr hc
        simp only [maskFrom, List.headD_cons, List.tail_cons, hdec, Bool.or_false,
          List.append_assoc, List.cons_append, List.nil_append]
        rw [← hpre]

theorem maskFrom_eq_zipMask (code : List Color) (g : List Color) :
    ∀ (i : Nat) (u : List Bool), (∀ b ∈ u, b = false) → u.length = g.length →
      i + g.length ≤ code.length →
      maskFrom code i g u = (g.zip (code.drop i)).map fun p => decide (p.1 = p.2) := by
  induction g with
  | nil =>
    intro i u _ hlen _
    rw [List.length_eq_zero.mp hlen]
    simp [maskFrom]
  | cons color rest ih =>
    intro i u hfalse hlen hcode
    match u with
    | [] => simp at hlen
    | b :: u' =>
      have hb : b = false := hfalse b (by simp)
      have hi : i < code.length := by simp at hcode; omega
      have hdrop : code.drop i = code[i] :: code.drop (i + 1) := List.drop_eq_getElem_cons hi
      have hgetD : code.getD i Color.None = code[i] := List.getD_eq_getElem code Color.None hi
      simp only [maskFrom, hdrop, List.zip_cons_cons, List.map_cons, hb, List.headD_cons,
        Bool.false_or, List.tail_cons, hgetD]
      rw [ih (i + 1) u' (fun x hx => hfalse x (by simp [hx]))
        (by simpa using Nat.succ_injective (by simpa using hlen))
        (by simp at hcode ⊢; omega)]

theorem pass1_snd_eq_exactMask (code guess : List Color) (h : List Hint)
    (hg : guess.length = 5) (hc : code.length = 5) :
    (pass1Go code 0 guess h (List.replicate 5 false)).2 = exactMask guess code := by
  have h0 : (0 : Nat) = ([] : List Bool).length := rfl
  have := pass1Go_snd code guess [] (List.replicate 5 false) h (by simp [hg])
  simp only [List.nil_append, List.length_nil] at this
  rw [this, maskFrom_eq_zipMask code guess 0 (List.replicate 5 false)
    (fun b hb => (List.mem_replicate.mp hb).2) (by simp [hg]) (by simp [hg, hc])]
  simp [exactMask]

theorem slots_cons (c k : Color) (b : Bool) (ks : List Color) (us : List Bool) :
    slots c (k :: ks) (b :: us) = (if k = c ∧ b = false then 1 else 0) + slots c ks us := by
  simp only [slots, List.zip_cons_cons, List.filter_cons]
  by_cases hk : k = c <;> cases b <;> simp [hk] <;> omega

theorem findFirst_some (c : Color) (code : List Color) :
    ∀ (u : List Bool) (j : Nat), findFirst c code u = some j →
      code[j]? = some c ∧ u[j]? = some false := by
  induction code with
  | nil => intro u j h; simp [findFirst] at h
  | cons k ks ih =>
    intro u j h
    match u with
    | [] => simp [findFirst] at h
    | b :: us =>
      simp only [findFirst] at h
      by_cases hcond : k = c ∧ b = false
      · rw [if_pos hcond] at h
        cases h
        simp [hcond.1, hcond.2]
      · rw [if_neg hcond] at h
        cases hrec : findFirst c ks us with
        | none => rw [hrec] at h; simp at h
        | some j' =>
          rw [hrec] at h
          simp only [Option.map_some', Option.some.injEq] at h
          obtain ⟨h1, h2⟩ := ih us j' hrec
          subst h
          simp [h1, h2]

theorem findFirst_none (c : Color) (code : List Color) :
    ∀ (u : List Bool), findFirst c code u = none → slots c code u = 0 := by
  induction code with
  | nil => intro u _; simp [slots]
  | cons k ks ih =>
    intro u h
    match u with
    | [] => simp [slots]
    | b :: us =>
      simp only [findFirst] at h
      by_cases hcond : k = c ∧ b = false
      · rw [if_pos hcond] at h; simp at h
      · rw [if_neg hcond] at h
        rw [slots_cons, if_neg hcond, ih us (by
          cases hrec : findFirst c ks us with
          | none => rfl
          | some j' => rw [hrec] at h; simp at h)]

theorem slots_set (code : List Color) :
    ∀ (u : List Bool) (j : Nat) (c : Color), code[j]? = some c → u[j]? = some false →
      ∀ c', slots c' code (u.set j true) + (if c' = c then 1 else 0) = slots c' code u := by
  induction code with
  | nil => intro u j c hc _ _; simp at hc
  | cons k ks ih =>
    intro u j c hc hu c'
    match u with
    | [] => simp at hu
    | b :: us =>
      match j with
      | 0 =>
        simp only [List.getElem?_cons_zero, Option.some.injEq] at hc hu
        subst hc hu
        simp only [List.set_cons_zero, slots_cons]
        by_cases hcc : c' = k
        · subst hcc
          simp <;> omega
        · have hkc : ¬k = c' := fun h => hcc h.symm
          simp [hcc, hkc]
      | j' + 1 =>
        simp only [List.getElem?_cons_succ] at hc hu
        have h := ih us j' c hc hu c'
        simp only [List.set_cons_succ, slots_cons]
        omega

theorem pass2Go_fst (code : List Color) (g : List Color) :
    ∀ (i : Nat) (h : List Hint) (u : List Bool),
      ∃ k, (pass2Go code i g h u).1 = h ++ List.replicate k Hint.CorrectColorButWrong := by
  induction g with
  | nil => intro i h u; exact ⟨0, by simp [pass2Go]⟩
  | cons color rest ih =>
    intro i h u
    by_cases hc : color = code.getD i Color.None
    · simpa only [pass2Go, if_pos hc] using ih (i + 1) h u
    · simp only [pass2Go, if_neg hc]
      cases hff : findFirst color code u with
      | none =>
        simpa only [hff] using ih (i + 1) h u
      | some j =>
        simp only [hff]
        obtain ⟨k, hk⟩ := ih (i + 1) (h ++ [Hint.CorrectColorButWrong]) (u.set j true)
        refine ⟨k + 1, ?_⟩
        rw [hk]
        simp [Nat.add_comm 1, List.replicate_succ, List.append_assoc]

theorem pass2Go_fst_length (code : List Color) (g : List Color) :
    ∀ (i : Nat) (h : List Hint) (u : List Bool),
      (pass2Go code i g h u).1.length =
        h.length + ∑ c : Color, min (gcntFrom code c i g) (slots c code u) := by
  induction g with
  | nil =>
    intro i h u
    simp [pass2Go, gcntFrom]
  | cons color rest ih =>
    intro i h u
    by_cases hc : color = code.getD i Color.None
    · simp only [pass2Go, if_pos hc]
      rw [ih]
      congr 1
      apply Finset.sum_congr rfl
      intro c _
      have hg : gcntFrom code c i (color :: rest) = gcntFrom code c (i + 1) rest := by
        simp [gcntFrom, hc]
      rw [hg]
    · simp only [pass2Go, if_neg hc]
      cases hff : findFirst color code u with
      | none =>
        simp only [hff]
        rw [ih]
        congr 1
        apply Finset.sum_congr rfl
        intro c _
        by_cases hcc : c = color
        · rw [hcc]
          have h0 : slots color code u = 0 := findFirst_none color code u hff
          simp [h0]
        · have hne : ¬color = c := fun h => hcc h.symm
          have hg : gcntFrom code c i (color :: rest) = gcntFrom code c (i + 1) rest := by
            simp [gcntFrom, hne]
          rw [hg]
      | some j =>
        simp only [hff]
        rw [ih]
        obtain ⟨hcj, huj⟩ := findFirst_some color code u j hff
        have hset := slots_set code u j color hcj huj
        have key : ∀ c : Color,
            min (gcntFrom code c i (color :: rest)) (slots c code u) =
              min (gcntFrom code c (i + 1) rest) (slots c code (u.set j true)) +
                (if c = color then 1 else 0) := by
          intro c
          by_cases hcc : c = color
          · rw [hcc]
            have h1 := hset color
            rw [if_pos rfl] at h1
            have hg : gcntFrom code color i (color :: rest) =
                1 + gcntFrom code color (i + 1) rest := by
              simp only [gcntFrom, eq_self_iff_true]
              rw [if_pos (And.intro trivial hc)]
            rw [hg, if_pos rfl]
            omega
          · have h2 := hset c
            rw [if_neg hcc] at h2
            have hne : ¬color = c := fun h => hcc h.symm
            have hg : gcntFrom code c i (color :: rest) = gcntFrom code c (i + 1) rest := by
              simp [gcntFrom, hne]
            rw [hg, if_neg hcc]
            omega
        rw [Finset.sum_congr rfl fun c _ => key c, Finset.sum_add_distrib,
          Finset.sum_ite_eq' Finset.univ color fun _ => 1]
        simp only [Finset.mem_univ, if_pos, List.length_append, List.length_cons,
          List.length_nil]
        omega

theorem pass2Go_fst_length_le (code : List Color) (g : List Color) :
    ∀ (i : Nat) (h : List Hint) (u : List Bool),
      (pass2Go code i g h u).1.length ≤ h.length + nonExactFrom code i g := by
  induction g with
  | nil => intro i h u; simp [pass2Go, nonExactFrom]
  | cons color rest ih =>
    intro i h u
    by_cases hc : color = code.getD i Color.None
    · simp only [pass2Go, if_pos hc, nonExactFrom, if_pos hc]
      have := ih (i + 1) h u
      omega
    · simp only [pass2Go, if_neg hc, nonExactFrom, if_neg hc]
      cases hff : findFirst color code u with
      | none =>
        simp only [hff]
        have := ih (i + 1) h u
        omega
      | some j =>
        simp only [hff]
        have := ih (i + 1) (h ++ [Hint.CorrectColorButWrong]) (u.set j true)
        simp only [List.length_append, List.length_cons, List.length_nil] at this
        omega

theorem exactFrom_add_nonExactFrom (code : List Color) (g : List Color) :
    ∀ i : Nat, exactFrom code i g + nonExactFrom code i g = g.length := by
  induction g with
  | nil => intro i; simp [exactFrom, nonExactFrom]
  | cons color rest ih =>
    intro i
    by_cases hc : color = code.getD i Color.None <;>
      simp only [exactFrom, nonExactFrom, if_pos, if_neg, hc, if_true, if_false,
        List.length_cons] <;>
      have := ih (i + 1) <;> omega

theorem exactFrom_eq (code : List Color) (g : List Color) :
    ∀ i : Nat, i + g.length ≤ code.length →
      exactFrom code i g = ((g.zip (code.drop i)).filter fun p => decide (p.1 = p.2)).length := by
  induction g with
  | nil => intro i _; simp [exactFrom]
  | cons color rest ih =>
    intro i hlen
    have hi : i < code.length := by simp at hlen; omega
    have hgetD : code.getD i Color.None = code[i] := List.getD_eq_getElem code Color.None hi
    rw [List.drop_eq_getElem_cons hi]
    simp only [exactFrom, hgetD, List.zip_cons_cons, List.filter_cons, decide_eq_true_eq]
    by_cases hcc : color = code[i]
    · rw [if_pos hcc, if_pos hcc, List.length_cons,
        ih (i + 1) (by simp at hlen ⊢; omega)]
      omega
    · rw [if_neg hcc, if_neg hcc, ih (i + 1) (by simp at hlen ⊢; omega)]
      omega

theorem gcntFrom_eq (code : List Color) (c : Color) (g : List Color) :
    ∀ i : Nat, i + g.length ≤ code.length →
      gcntFrom code c i g =
        ((g.zip (code.drop i)).filter fun p =>
          decide (p.1 = c) && !decide (p.1 = p.2)).length := by
  induction g with
  | nil => intro i _; simp [gcntFrom]
  | cons color rest ih =>
    intro i hlen
    have hi : i < code.length := by simp at hlen; omega
    have hgetD : code.getD i Color.None = code[i] := List.getD_eq_getElem code Color.None hi
    rw [List.drop_eq_getElem_cons hi]
    have hterm : (decide (color = c) && !decide (color = code[i])) =
        decide (color = c ∧ ¬color = code[i]) := by
      by_cases h1 : color = c <;> by_cases h2 : color = code[i] <;> simp [h1, h2]
    simp only [gcntFrom, hgetD, List.zip_cons_cons, List.filter_cons, hterm,
      decide_eq_true_eq]
    by_cases hcond : color = c ∧ ¬color = code[i]
    · rw [if_pos hcond, if_pos hcond, List.length_cons,
        ih (i + 1) (by simp at hlen ⊢; omega)]
      omega
    · rw [if_neg hcond, if_neg hcond, ih (i + 1) (by simp at hlen ⊢; omega)]
      omega

theorem slots_exactMask (c : Color) : ∀ (guess code : List Color),
    slots c code (exactMask guess code) = nonExactCodeCount c guess code := by
  intro guess
  induction guess with
  | nil => intro code; simp [slots, exactMask, nonExactCodeCount]
  | cons g gs ih =>
    intro code
    cases code with
    | nil => simp [slots, exactMask, nonExactCodeCount]
    | cons k ks =>
      have hmask : exactMask (g :: gs) (k :: ks) = decide (g = k) :: exactMask gs ks := by
        simp [exactMask]
      rw [hmask, slots_cons]
      have hcount : nonExactCodeCount c (g :: gs) (k :: ks) =
          (if k = c ∧ decide (g = k) = false then 1 else 0) + nonExactCodeCount c gs ks := by
        simp only [nonExactCodeCount, List.zip_cons_cons, List.filter_cons]
        by_cases h1 : k = c <;> by_cases h2 : g = k <;> simp [h1, h2] <;>
          by_cases h3 : g = c <;> simp [h3] <;> omega
      rw [hcount, ih ks]

theorem hintLE_eq_decide : hintLE = fun a b => decide (hintR a b) := by
  funext a b
  cases a <;> cases b <;> rfl

theorem sorted_hint_replicate (a b : Nat) :
    List.Sorted hintR
      (List.replicate a Hint.CorrectlyPlaced ++ List.replicate b Hint.CorrectColorButWrong) := by
  apply List.pairwise_append.mpr
  refine ⟨List.pairwise_replicate.mpr (Or.inr (by decide)),
    List.pairwise_replicate.mpr (Or.inr (by decide)), ?_⟩
  intro x hx y hy
  rw [(List.mem_replicate.mp hx).2, (List.mem_replicate.mp hy).2]
  decide

theorem mergeSort_hint_replicate (a b : Nat) :
    (List.replicate a Hint.CorrectlyPlaced ++
        List.replicate b Hint.CorrectColorButWrong).mergeSort hintLE =
      List.replicate a Hint.CorrectlyPlaced ++ List.replicate b Hint.CorrectColorButWrong := by
  rw [hintLE_eq_decide]
  rw [List.mergeSort_eq_insertionSort hintR]
  exact (sorted_hint_replicate a b).insertionSort_eq

theorem get_hints_eq (guess code : List Color) (hg : guess.length = 5) (hc : code.length = 5) :
    get_hints guess code =
      List.replicate (exactCount guess code) Hint.CorrectlyPlaced ++
        List.replicate
          (∑ c : Color, min (nonExactGuessCount c guess code) (nonExactCodeCount c guess code))
          Hint.CorrectColorButWrong := by
  have hA : exactFrom code 0 guess = exactCount guess code := by
    rw [exactFrom_eq code guess 0 (by omega)]
    simp [exactCount]
  have h1 : (pass1Go code 0 guess [] (List.replicate 5 false)).1 =
      List.replicate (exactCount guess code) Hint.CorrectlyPlaced := by
    rw [pass1Go_fst code guess 0 [] (List.replicate 5 false), hA]
    simp
  have h2 : (pass1Go code 0 guess [] (List.replicate 5 false)).2 = exactMask guess code :=
    pass1_snd_eq_exactMask code guess [] hg hc
  obtain ⟨k, hk⟩ := pass2Go_fst code guess 0
    (List.replicate (exactCount guess code) Hint.CorrectlyPlaced) (exactMask guess code)
  have hlen := pass2Go_fst_length code guess 0
    (List.replicate (exactCount guess code) Hint.CorrectlyPlaced) (exactMask guess code)
  rw [hk] at hlen
  simp only [List.length_append, List.length_replicate] at hlen
  have hsum : ∀ c : Color, min (gcntFrom code c 0 guess) (slots c code (exactMask guess code)) =
      min (nonExactGuessCount c guess code) (nonExactCodeCount c guess code) := by
    intro c
    rw [gcntFrom_eq code c guess 0 (by omega), slots_exactMask c guess code]
    simp [nonExactGuessCount]
  have hksum : k = ∑ c : Color,
      min (nonExactGuessCount c guess code) (nonExactCodeCount c guess code) := by
    rw [← Finset.sum_congr rfl fun c _ => hsum c]
    omega
  simp only [get_hints, h1, h2, hk, hksum]
  exact mergeSort_hint_replicate _ _

theorem foldl_and_eq_all {α : Type} (d : α → Bool) (l : List α) :
    ∀ a : Bool, l.foldl (fun acc x => d x && acc) a = (l.all d && a) := by
  induction l with
  | nil => intro a; simp
  | cons x xs ih =>
    intro a
    simp only [List.foldl_cons, List.all_cons, ih (d x && a)]
    cases d x <;> cases a <;> simp

theorem zip_all_eq : ∀ (g c : List Color), g.length = c.length →
    ((((g.zip c).all fun p => decide (p.1 = p.2)) = true) ↔ g = c) := by
  intro g
  induction g with
  | nil =>
    intro c hlen
    cases c with
    | nil => simp
    | cons y ys => simp at hlen
  | cons x xs ih =>
    intro c hlen
    cases c with
    | nil => simp at hlen
    | cons y ys =>
      simp only [List.zip_cons_cons, List.all_cons, Bool.and_eq_true, decide_eq_true_eq]
      rw [ih ys (by simpa using hlen)]
      simp [List.cons.injEq]

theorem is_correct_iff (guess code : List Color) : is_correct guess code = true ↔ guess = code := by
  unfold is_correct
  by_cases hlen : guess.length ≠ code.length
  · rw [if_pos hlen]
    constructor
    · intro h; simp at h
    · intro h; subst h; exact absurd rfl hlen
  · rw [if_neg hlen]
    rw [foldl_and_eq_all, Bool.and_true]
    exact zip_all_eq guess code (not_not.mp hlen)

theorem exactCount_cons (x y : Color) (xs ys : List Color) :
    exactCount (x :: xs) (y :: ys) = (if x = y then 1 else 0) + exactCount xs ys := by
  simp only [exactCount, List.zip_cons_cons, List.filter_cons, decide_eq_true_eq]
  by_cases hxy : x = y <;> simp [hxy] <;> omega

theorem exactCount_le_left (g c : List Color) : exactCount g c ≤ g.length :=
  le_trans (List.length_filter_le _ _) (by rw [List.length_zip]; exact min_le_left _ _)

theorem exactCount_eq_length_iff : ∀ (g c : List Color), g.length = c.length →
    (exactCount g c = g.length ↔ g = c) := by
  intro g
  induction g with
  | nil =>
    intro c h
    cases c with
    | nil => simp [exactCount]
    | cons y ys => simp at h
  | cons x xs ih =>
    intro c h
    cases c with
    | nil => simp at h
    | cons y ys =>
      have hlen : xs.length = ys.length := by simpa using h
      rw [exactCount_cons, List.length_cons]
      by_cases hxy : x = y
      · rw [if_pos hxy]
        constructor
        · intro hh
          have hec : exactCount xs ys = xs.length := by omega
          rw [hxy, (ih ys hlen).mp hec]
        · intro hh
          injection hh with _ h2
          have := (ih ys hlen).mpr h2
          omega
      · rw [if_neg hxy]
        constructor
        · intro hh
          exfalso
          have hle := exactCount_le_left xs ys
          omega
        · intro hh
          injection hh with h1 _
          exact absurd h1 hxy

theorem exactCount_self (s : List Color) : exactCount s s = s.length := by
  induction s with
  | nil => simp [exactCount]
  | cons x xs ih => rw [exactCount_cons, if_pos rfl, List.length_cons]; omega

theorem nonExactGuessCount_self (c : Color) (s : List Color) : nonExactGuessCount c s s = 0 := by
  induction s with
  | nil => simp [nonExactGuessCount]
  | cons x xs ih =>
    simp only [nonExactGuessCount, List.zip_cons_cons, List.filter_cons] at ih ⊢
    simpa using ih

theorem exactCount_comm : ∀ (g c : List Color), exactCount g c = exactCount c g := by
  intro g
  induction g with
  | nil => intro c; cases c <;> simp [exactCount]
  | cons x xs ih =>
    intro c
    cases c with
    | nil => simp [exactCount]
    | cons y ys =>
      rw [exactCount_cons, exactCount_cons, ih ys]
      congr 1
      by_cases h : x = y
      · simp [h]
      · have h' : ¬y = x := fun hh => h hh.symm
        simp [h, h']

theorem count_CP_get_hints (guess code : List Color) (hg : guess.length = 5)
    (hc : code.length = 5) :
    (get_hints guess code).count Hint.CorrectlyPlaced = exactCount guess code := by
  rw [get_hints_eq guess code hg hc, List.count_append, List.count_replicate_self,
    List.count_replicate]
  simp

theorem count_CCW_get_hints (guess code : List Color) (hg : guess.length = 5)
    (hc : code.length = 5) :
    (get_hints guess code).count Hint.CorrectColorButWrong =
      ∑ c : Color, min (nonExactGuessCount c guess code) (nonExactCodeCount c guess code) := by
  rw [get_hints_eq guess code hg hc, List.count_append, List.count_replicate_self,
    List.count_replicate]
  simp

theorem length_get_hints (guess code : List Color) (hg : guess.length = 5)
    (hc : code.length = 5) :
    (get_hints guess code).length =
      exactCount guess code +
        ∑ c : Color, min (nonExactGuessCount c guess code) (nonExactCodeCount c guess code) := by
  rw [get_hints_eq guess code hg hc]
  simp

theorem sum_min_bound (guess code : List Color) (hg : guess.length = 5)
    (hc : code.length = 5) :
    exactCount guess code +
      (∑ c : Color, min (nonExactGuessCount c guess code) (nonExactCodeCount c guess code)) ≤
        5 := by
  have hlen := pass2Go_fst_length code guess 0 [] (exactMask guess code)
  have hle := pass2Go_fst_length_le code guess 0 [] (exactMask guess code)
  rw [hlen] at hle
  have hsum : ∀ c : Color, min (gcntFrom code c 0 guess) (slots c code (exactMask guess code)) =
      min (nonExactGuessCount c guess code) (nonExactCodeCount c guess code) := by
    intro c
    rw [gcntFrom_eq code c guess 0 (by omega), slots_exactMask c guess code]
    simp [nonExactGuessCount]
  rw [Finset.sum_congr rfl fun c _ => hsum c] at hle
  have hA : exactFrom code 0 guess = exactCount guess code := by
    rw [exactFrom_eq code guess 0 (by omega)]
    simp [exactCount]
  have hsplit := exactFrom_add_nonExactFrom code guess 0
  simp only [List.length_nil] at hle
  omega

theorem replicate_append_order {α : Type} {x y : α} (hxy : x ≠ y) (a b i j : Nat)
    (h1 : (List.replicate a x ++ List.replicate b y)[i]? = some x)
    (h2 : (List.replicate a x ++ List.replicate b y)[j]? = some y) : i < j := by
  have hia : i < a := by
    by_contra hge
    push_neg at hge
    rw [List.getElem?_append_right (by simpa using hge)] at h1
    rw [List.getElem?_replicate] at h1
    split at h1
    · exact hxy (Option.some.inj h1).symm
    · exact Option.noConfusion h1
  have hja : ¬j < a := by
    intro hj
    rw [List.getElem?_append, List.length_replicate, if_pos hj] at h2
    rw [List.getElem?_replicate, if_pos hj] at h2
    exact hxy (Option.some.inj h2)
  omega

/-- C1: for 5-color guesses and codes, the number of `CorrectlyPlaced`
hints produced by `get_hints` is exactly the number of positions where
guess and code hold the same color. -/
theorem claim1_exact_count (guess code : List Color)
    (hg : guess.length = 5) (hc : code.length = 5) :
    (get_hints guess code).count Hint.CorrectlyPlaced = exactCount guess code :=
  count_CP_get_hints guess code hg hc

open Color in
theorem claim1_witness :
    (get_hints [Red, Blue, Green, Black, White]
        [Red, Red, Blue, Green, None]).count Hint.CorrectlyPlaced =
      exactCount [Red, Blue, Green, Black, White] [Red, Red, Blue, Green, None] :=
  claim1_exact_count _ _ rfl rfl

/-- C2: for 5-color guesses and codes, the number of
`CorrectColorButWrong` hints produced by `get_hints` never exceeds the
sum over all colors of the minimum between the color's occurrences at
non-exact guess positions and at non-exact code positions. -/
theorem claim2_color_supply_bound (guess code : List Color)
    (hg : guess.length = 5) (hc : code.length = 5) :
    (get_hints guess code).count Hint.CorrectColorButWrong ≤
      ∑ c : Color, min (nonExactGuessCount c guess code) (nonExactCodeCount c guess code) :=
  le_of_eq (count_CCW_get_hints guess code hg hc)

open Color in
theorem claim2_witness :
    (get_hints [Blue, Blue, Blue, Blue, Blue]
        [Red, Blue, Green, Black, White]).count Hint.CorrectColorButWrong ≤
      ∑ c : Color,
        min (nonExactGuessCount c [Blue, Blue, Blue, Blue, Blue] [Red, Blue, Green, Black, White])
          (nonExactCodeCount c [Blue, Blue, Blue, Blue, Blue] [Red, Blue, Green, Black, White]) :=
  claim2_color_supply_bound _ _ rfl rfl

unseal List.merge List.mergeSort in
/-- C3, counterexample: on secret `[Red, Red, Blue, Green, None]` and
guess `[Red, Blue, Blue, Blue, Blue]` the code does NOT return one
`CorrectlyPlaced` and one `CorrectColorButWrong`: position 2 is a
second exact match (both hold Blue), so the claimed hint split is
wrong. -/
theorem claim3_counterexample :
    ¬((get_hints [Color.Red, Color.Blue, Color.Blue, Color.Blue, Color.Blue]
          [Color.Red, Color.Red, Color.Blue, Color.Green, Color.None]).count
            Hint.CorrectlyPlaced = 1 ∧
        (get_hints [Color.Red, Color.Blue, Color.Blue, Color.Blue, Color.Blue]
          [Color.Red, Color.Red, Color.Blue, Color.Green, Color.None]).count
            Hint.CorrectColorButWrong = 1) := by
  decide

unseal List.merge List.mergeSort in
/-- C3, amended: on secret `[Red, Red, Blue, Green, None]` and guess
`[Red, Blue, Blue, Blue, Blue]` the scoring function returns exactly 2
`CorrectlyPlaced` hints (positions 0 and 2) and 0 `CorrectColorButWrong`
hints, for a total of 2 hints. -/
theorem claim3_amended :
    (get_hints [Color.Red, Color.Blue, Color.Blue, Color.Blue, Color.Blue]
        [Color.Red, Color.Red, Color.Blue, Color.Green, Color.None]).count
          Hint.CorrectlyPlaced = 2 ∧
      (get_hints [Color.Red, Color.Blue, Color.Blue, Color.Blue, Color.Blue]
        [Color.Red, Color.Red, Color.Blue, Color.Green, Color.None]).count
          Hint.CorrectColorButWrong = 0 ∧
      (get_hints [Color.Red, Color.Blue, Color.Blue, Color.Blue, Color.Blue]
        [Color.Red, Color.Red, Color.Blue, Color.Green, Color.None]).length = 2 := by
  decide

/-- C4: for 5-color guesses and codes, `get_hints` yields 5
`CorrectlyPlaced` hints exactly when guess and code are equal; scoring
a code against itself yields exactly `replicate 5 CorrectlyPlaced`
(so 0 `CorrectColorButWrong`); and the session's winning test
`is_correct` agrees with that equality. -/
theorem claim4_win_iff (guess code : List Color)
    (hg : guess.length = 5) (hc : code.length = 5) :
    ((get_hints guess code).count Hint.CorrectlyPlaced = 5 ↔ guess = code) ∧
      get_hints code code = List.replicate 5 Hint.CorrectlyPlaced ∧
      (is_correct guess code = true ↔ guess = code) := by
  refine ⟨?_, ?_, is_correct_iff guess code⟩
  · rw [count_CP_get_hints guess code hg hc]
    have h := exactCount_eq_length_iff guess code (hg.trans hc.symm)
    rw [hg] at h
    exact h
  · rw [get_hints_eq code code hc hc]
    have h1 : exactCount code code = 5 := by rw [exactCount_self, hc]
    have h2 : ∀ c : Color,
        min (nonExactGuessCount c code code) (nonExactCodeCount c code code) = 0 := by
      intro c
      rw [nonExactGuessCount_self]
      simp
    rw [h1, Finset.sum_congr rfl fun c _ => h2 c]
    simp

open Color in
theorem claim4_witness :
    ((get_hints [Red, Blue, Green, Black, White]
        [Red, Red, Blue, Green, None]).count Hint.CorrectlyPlaced = 5 ↔
      [Red, Blue, Green, Black, White] = [Red, Red, Blue, Green, None]) ∧
      get_hints [Red, Red, Blue, Green, None] [Red, Red, Blue, Green, None] =
        List.replicate 5 Hint.CorrectlyPlaced ∧
      (is_correct [Red, Blue, Green, Black, White] [Red, Red, Blue, Green, None] = true ↔
        [Red, Blue, Green, Black, White] = [Red, Red, Blue, Green, None]) :=
  claim4_win_iff _ _ rfl rfl

/-- C5: for 5-color guesses and codes, `get_hints` returns at most 5
hints in total. -/
theorem claim5_total_le (guess code : List Color)
    (hg : guess.length = 5) (hc : code.length = 5) :
    (get_hints guess code).length ≤ 5 := by
  rw [length_get_hints guess code hg hc]
  exact sum_min_bound guess code hg hc

open Color in
theorem claim5_witness :
    (get_hints [Blue, Blue, Blue, Blue, Blue] [Red, Red, Blue, Green, None]).length ≤ 5 :=
  claim5_total_le _ _ rfl rfl

/-- C6: for 5-color guesses and codes, the hint list returned by
`get_hints` is canonically ordered: any position holding
`CorrectlyPlaced` comes strictly before any position holding
`CorrectColorButWrong`. -/
theorem claim6_order (guess code : List Color)
    (hg : guess.length = 5) (hc : code.length = 5) :
    ∀ i j : Nat, (get_hints guess code)[i]? = some Hint.CorrectlyPlaced →
      (get_hints guess code)[j]? = some Hint.CorrectColorButWrong → i < j := by
  intro i j h1 h2
  rw [get_hints_eq guess code hg hc] at h1 h2
  exact replicate_append_order (by decide) _ _ i j h1 h2

unseal List.merge List.mergeSort in
open Color in
theorem claim6_witness :
    (get_hints [Red, None, Blue, Blue, Blue] [Red, Red, Blue, Green, None])[0]? =
        some Hint.CorrectlyPlaced ∧
      (get_hints [Red, None, Blue, Blue, Blue] [Red, Red, Blue, Green, None])[2]? =
        some Hint.CorrectColorButWrong ∧
      (0 : Nat) < 2 :=
  ⟨by decide, by decide,
    claim6_order [Red, None, Blue, Blue, Blue] [Red, Red, Blue, Green, None] rfl rfl 0 2
      (by decide) (by decide)⟩

/-- C7: for 5-color codes, the `CorrectlyPlaced` count of
`get_hints g s` equals that of `get_hints s g`: the exact-match count
is symmetric in the two codes. -/
theorem claim7_exact_symm (g s : List Color)
    (hg : g.length = 5) (hs : s.length = 5) :
    (get_hints g s).count Hint.CorrectlyPlaced =
      (get_hints s g).count Hint.CorrectlyPlaced := by
  rw [count_CP_get_hints g s hg hs, count_CP_get_hints s g hs hg, exactCount_comm]

open Color in
theorem claim7_witness :
    (get_hints [Red, Blue, Green, Black, White]
        [Red, Red, Blue, Green, None]).count Hint.CorrectlyPlaced =
      (get_hints [Red, Red, Blue, Green, None]
        [Red, Blue, Green, Black, White]).count Hint.CorrectlyPlaced :=
  claim7_exact_symm _ _ rfl rfl

theorem splitOnChar_ne_nil (c : Char) (l : List Char) : splitOnChar c l ≠ [] := by
  cases l with
  | nil => simp [splitOnChar]
  | cons x xs =>
    simp only [splitOnChar]
    by_cases h : x = c
    · simp [h]
    · rw [if_neg h]
      cases hs : splitOnChar c xs <;> simp

theorem joinTokens_splitOnChar (l : List Char) : joinTokens (splitOnChar ' ' l) = l := by
  induction l with
  | nil => rfl
  | cons x xs ih =>
    by_cases h : x = ' '
    · subst h
      simp only [splitOnChar, if_pos rfl]
      cases hs : splitOnChar ' ' xs with
      | nil => exact absurd hs (splitOnChar_ne_nil ' ' xs)
      | cons t ts =>
        rw [hs] at ih
        simp only [joinTokens, List.nil_append]
        rw [ih]
    · simp only [splitOnChar, if_neg h]
      cases hs : splitOnChar ' ' xs with
      | nil => exact absurd hs (splitOnChar_ne_nil ' ' xs)
      | cons t ts =>
        rw [hs] at ih
        cases ts with
        | nil =>
          simp only [joinTokens] at ih ⊢
          rw [ih]
        | cons t2 ts2 =>
          simp only [joinTokens] at ih ⊢
          rw [List.cons_append, ih]

theorem splitOnChar_no_sep (c : Char) : ∀ t : List Char, c ∉ t → splitOnChar c t = [t] := by
  intro t
  induction t with
  | nil => intro _; rfl
  | cons x xs ih =>
    intro h
    have hx : ¬x = c := fun hh => h (by rw [hh]; exact List.mem_cons_self _ _)
    simp only [splitOnChar, if_neg hx]
    rw [ih fun hh => h (List.mem_cons_of_mem _ hh)]

theorem splitOnChar_sep_append (c : Char) (s : List Char) :
    ∀ t : List Char, c ∉ t → splitOnChar c (t ++ c :: s) = t :: splitOnChar c s := by
  intro t
  induction t with
  | nil => simp [splitOnChar]
  | cons x xs ih =>
    intro h
    have hx : ¬x = c := fun hh => h (by rw [hh]; exact List.mem_cons_self _ _)
    simp only [List.cons_append, splitOnChar, if_neg hx, List.append_eq]
    rw [ih fun hh => h (List.mem_cons_of_mem _ hh)]

theorem splitOnChar_joinTokens : ∀ ts : List (List Char), ts ≠ [] →
    (∀ t ∈ ts, ' ' ∉ t) → splitOnChar ' ' (joinTokens ts) = ts := by
  intro ts
  induction ts with
  | nil => intro h _; exact absurd rfl h
  | cons t ts2 ih =>
    intro _ h
    cases ts2 with
    | nil =>
      simp only [joinTokens]
      exact splitOnChar_no_sep ' ' t (h t (by simp))
    | cons t2 ts3 =>
      simp only [joinTokens]
      rw [splitOnChar_sep_append ' ' _ t (h t (by simp))]
      rw [ih (by simp) fun x hx => h x (List.mem_cons_of_mem _ hx)]

theorem COLOR_SET_tokens :
    ∀ t ∈ COLOR_SET, t ≠ [] ∧ ' ' ∉ t ∧ ∀ ch ∈ t, ch.isWhitespace = false := by
  decide

theorem validate_guess_iff (s : List Char) :
    validate_guess s = true ↔
      ∃ ts : List (List Char), ts.length = 5 ∧ (∀ t ∈ ts, t ∈ COLOR_SET) ∧
        s = joinTokens ts := by
  unfold validate_guess
  by_cases hlen : (splitOnChar ' ' s).length ≠ 5
  · rw [if_pos hlen]
    constructor
    · intro hh; simp at hh
    · rintro ⟨ts, hts, hmem, rfl⟩
      exfalso
      apply hlen
      rw [splitOnChar_joinTokens ts (by intro hh; rw [hh] at hts; simp at hts)
        fun t ht => (COLOR_SET_tokens t (hmem t ht)).2.1]
      exact hts
  · rw [if_neg hlen]
    push_neg at hlen
    rw [foldl_and_eq_all, Bool.and_true, List.all_eq_true]
    constructor
    · intro hall
      refine ⟨splitOnChar ' ' s, hlen, ?_, (joinTokens_splitOnChar s).symm⟩
      intro t ht
      exact of_decide_eq_true (hall t ht)
    · rintro ⟨ts, hts, hmem, rfl⟩
      rw [splitOnChar_joinTokens ts (by intro hh; rw [hh] at hts; simp at hts)
        fun t ht => (COLOR_SET_tokens t (hmem t ht)).2.1]
      intro t ht
      exact decide_eq_true (hmem t ht)

/-- C8: `validate_guess` accepts a string exactly when it is five
tokens joined by single spaces, each token one of the nine recognized
color names of `COLOR_SET`; every other string is rejected. -/
theorem claim8_validate_iff (s : List Char) :
    validate_guess s = true ↔
      ∃ ts : List (List Char), ts.length = 5 ∧ (∀ t ∈ ts, t ∈ COLOR_SET) ∧
        s = joinTokens ts :=
  validate_guess_iff s

theorem takeWhile_append_all (p : Char → Bool) :
    ∀ (t l : List Char), (∀ x ∈ t, p x = true) →
      (t ++ l).takeWhile p = t ++ l.takeWhile p := by
  intro t
  induction t with
  | nil => intro l _; rfl
  | cons x xs ih =>
    intro l h
    have hx : p x = true := h x (by simp)
    simp only [List.cons_append, List.takeWhile_cons, hx, if_true]
    rw [ih l fun y hy => h y (List.mem_cons_of_mem _ hy)]

theorem dropWhile_append_all (p : Char → Bool) :
    ∀ (t l : List Char), (∀ x ∈ t, p x = true) →
      (t ++ l).dropWhile p = l.dropWhile p := by
  intro t
  induction t with
  | nil => intro l _; rfl
  | cons x xs ih =>
    intro l h
    have hx : p x = true := h x (by simp)
    simp only [List.cons_append, List.dropWhile_cons, hx, if_true]
    exact ih l fun y hy => h y (List.mem_cons_of_mem _ hy)

theorem splitWS_joinTokens : ∀ ts : List (List Char),
    (∀ t ∈ ts, t ≠ [] ∧ ∀ ch ∈ t, ch.isWhitespace = false) →
      splitWS (joinTokens ts) = ts := by
  intro ts
  induction ts with
  | nil =>
    intro _
    simp only [joinTokens]
    rw [splitWS]
  | cons t ts2 ih =>
    intro h
    obtain ⟨hne, hnws⟩ := h t (by simp)
    cases ts2 with
    | nil =>
      simp only [joinTokens]
      cases t with
      | nil => exact absurd rfl hne
      | cons x xs =>
        have hx : x.isWhitespace = false := hnws x (by simp)
        have hxs : ∀ y ∈ xs, (!y.isWhitespace) = true := by
          intro y hy
          rw [hnws y (List.mem_cons_of_mem _ hy)]
          rfl
        rw [splitWS]
        rw [if_neg (by rw [hx]; exact Bool.false_ne_true)]
        have htake : xs.takeWhile (fun y => !y.isWhitespace) = xs := by
          have := takeWhile_append_all (fun y => !y.isWhitespace) xs [] hxs
          simpa using this
        have hdrop : xs.dropWhile (fun y => !y.isWhitespace) = [] := by
          have := dropWhile_append_all (fun y => !y.isWhitespace) xs [] hxs
          simpa using this
        rw [htake, hdrop, splitWS]
    | cons t2 ts3 =>
      simp only [joinTokens]
      cases t with
      | nil => exact absurd rfl hne
      | cons x xs =>
        have hx : x.isWhitespace = false := hnws x (by simp)
        have hxs : ∀ y ∈ xs, (!y.isWhitespace) = true := by
          intro y hy
          rw [hnws y (List.mem_cons_of_mem _ hy)]
          rfl
        rw [List.cons_append, splitWS]
        rw [if_neg (by rw [hx]; exact Bool.false_ne_true)]
        have htake : (xs ++ ' ' :: joinTokens (t2 :: ts3)).takeWhile
            (fun y => !y.isWhitespace) = xs := by
          rw [takeWhile_append_all _ xs _ hxs, List.takeWhile_cons]
          simp
        have hdrop : (xs ++ ' ' :: joinTokens (t2 :: ts3)).dropWhile
            (fun y => !y.isWhitespace) = ' ' :: joinTokens (t2 :: ts3) := by
          rw [dropWhile_append_all _ xs _ hxs, List.dropWhile_cons]
          simp
        rw [htake, hdrop, splitWS]
        rw [if_pos (by simp)]
        rw [ih fun y hy => h y (List.mem_cons_of_mem _ hy)]

theorem string_to_color_COLOR_SET : ∀ t ∈ COLOR_SET, (string_to_color t).isSome = true := by
  decide

theorem colorsOfTokens_some : ∀ ts : List (List Char),
    (∀ t ∈ ts, (string_to_color t).isSome = true) →
      ∃ cs, colorsOfTokens ts = some cs ∧ cs.length = ts.length := by
  intro ts
  induction ts with
  | nil => intro _; exact ⟨[], rfl, rfl⟩
  | cons t ts2 ih =>
    intro h
    obtain ⟨c, hc⟩ := Option.isSome_iff_exists.mp (h t (by simp))
    obtain ⟨cs, hcs, hlen⟩ := ih fun x hx => h x (List.mem_cons_of_mem _ hx)
    exact ⟨c :: cs, by simp [colorsOfTokens, hc, hcs], by simp [hlen]⟩

theorem get_colors_of_validate (s : List Char) (h : validate_guess s = true) :
    ∃ cs, get_colors s = some cs ∧ cs.length = 5 := by
  obtain ⟨ts, hts, hmem, rfl⟩ := (validate_guess_iff s).mp h
  have htok : ∀ t ∈ ts, t ≠ [] ∧ ∀ ch ∈ t, ch.isWhitespace = false := fun t ht =>
    ⟨(COLOR_SET_tokens t (hmem t ht)).1, (COLOR_SET_tokens t (hmem t ht)).2.2⟩
  unfold get_colors
  rw [splitWS_joinTokens ts htok]
  obtain ⟨cs, hcs, hlen⟩ :=
    colorsOfTokens_some ts fun t ht => string_to_color_COLOR_SET t (hmem t ht)
  exact ⟨cs, hcs, by rw [hlen, hts]⟩

/-- C10: every string accepted by `validate_guess` converts totally:
`get_colors` returns `some` list of exactly 5 colors, so the Rust
panic branch of `string_to_color` (modelled as `none`) is never hit. -/
theorem claim10_get_colors_total (s : List Char) (h : validate_guess s = true) :
    ∃ cs, get_colors s = some cs ∧ cs.length = 5 :=
  get_colors_of_validate s h

theorem claim10_witness :
    validate_guess
        ['r', 'e', 'd', ' ', 'b', 'l', 'u', 'e', ' ', 'r', 'e', 'd', ' ',
         'n', 'o', 'n', 'e', ' ', 'r', 'e', 'd'] = true ∧
      ∃ cs, get_colors
          ['r', 'e', 'd', ' ', 'b', 'l', 'u', 'e', ' ', 'r', 'e', 'd', ' ',
           'n', 'o', 'n', 'e', ' ', 'r', 'e', 'd'] = some cs ∧ cs.length = 5 :=
  ⟨by decide, claim10_get_colors_total _ (by decide)⟩

theorem stepSession_invalid (code : List Color) (s : SessionState) (input : List Char)
    (h : validate_guess input = false) : stepSession code s input = s := by
  unfold stepSession
  rw [h]
  simp

theorem stepSession_valid_attempts (code : List Color) (s : SessionState) (input : List Char)
    (hv : validate_guess input = true) (hdone : s.done = false)
    (hlt : s.attempts < sessionN) :
    (stepSession code s input).attempts = s.attempts + 1 := by
  obtain ⟨cs, hcs, _⟩ := get_colors_of_validate input hv
  have h1 : (s.done || decide (sessionN ≤ s.attempts)) = false := by
    rw [hdone, Bool.false_or, decide_eq_false_iff_not]
    omega
  unfold stepSession
  rw [h1, hv, hcs]
  simp only [Bool.false_eq_true, if_false, Bool.not_true]
  cases hic : is_correct cs code <;> simp [hic]

theorem stepSession_attempts_le (code : List Color) (s : SessionState) (input : List Char)
    (h : s.attempts ≤ sessionN) : (stepSession code s input).attempts ≤ sessionN := by
  unfold stepSession
  by_cases h1 : (s.done || decide (sessionN ≤ s.attempts)) = true
  · rw [h1]
    simpa using h
  · have hlt : s.attempts < sessionN := by
      rw [Bool.or_eq_true, not_or] at h1
      have := h1.2
      rw [decide_eq_true_eq] at this
      omega
    rw [Bool.not_eq_true] at h1
    rw [h1]
    simp only [Bool.false_eq_true, if_false]
    by_cases h2 : validate_guess input = true
    · rw [h2]
      simp only [Bool.not_true, Bool.false_eq_true, if_false]
      cases hgc : get_colors input with
      | none => exact h
      | some guess =>
        simp only []
        cases hic : is_correct guess code <;> simp [hic] <;> omega
    · rw [Bool.not_eq_true] at h2
      rw [h2]
      simpa using h

theorem runSession_attempts_le (code : List Color) (inputs : List (List Char)) :
    (runSession code inputs).attempts ≤ sessionN := by
  unfold runSession
  have hgen : ∀ (l : List (List Char)) (s : SessionState), s.attempts ≤ sessionN →
      (l.foldl (stepSession code) s).attempts ≤ sessionN := by
    intro l
    induction l with
    | nil => intro s hs; exact hs
    | cons a l2 ih =>
      intro s hs
      exact ih _ (stepSession_attempts_le code s a hs)
  exact hgen inputs initialSession (by simp [initialSession, sessionN])

/-- C9: in the loop of `main`, an input that fails `validate_guess`
leaves the whole session state (attempt counter, history, accepting
status) unchanged, every validated guess submitted to a still-running
session increments the attempt counter by exactly 1, and the attempt
counter never exceeds `n = 12` on any input sequence. -/
theorem claim9_session (code : List Color) :
    (∀ (s : SessionState) (input : List Char), validate_guess input = false →
        stepSession code s input = s) ∧
      (∀ (s : SessionState) (input : List Char), validate_guess input = true →
        s.done = false → s.attempts < sessionN →
        (stepSession code s input).attempts = s.attempts + 1) ∧
      (∀ inputs : List (List Char), (runSession code inputs).attempts ≤ sessionN) :=
  ⟨fun s input h => stepSession_invalid code s input h,
   fun s input hv hdone hlt => stepSession_valid_attempts code s input hv hdone hlt,
   fun inputs => runSession_attempts_le code inputs⟩

open Color in
theorem claim9_witness :
    stepSession [Red, Red, Red, Red, Red] initialSession ['x'] = initialSession ∧
      (stepSession [Red, Red, Red, Red, Red] initialSession
        ['b', 'l', 'u', 'e', ' ', 'r', 'e', 'd', ' ', 'r', 'e', 'd', ' ',
         'r', 'e', 'd', ' ', 'r', 'e', 'd']).attempts = 1 ∧
      (runSession [Red, Red, Red, Red, Red]
        [['b', 'l', 'u', 'e', ' ', 'r', 'e', 'd', ' ', 'r', 'e', 'd', ' ',
          'r', 'e', 'd', ' ', 'r', 'e', 'd']]).attempts ≤ sessionN :=
  ⟨(claim9_session [Red, Red, Red, Red, Red]).1 initialSession ['x'] (by decide),
   (claim9_session [Red, Red, Red, Red, Red]).2.1 initialSession
     ['b', 'l', 'u', 'e', ' ', 'r', 'e', 'd', ' ', 'r', 'e', 'd', ' ',
      'r', 'e', 'd', ' ', 'r', 'e', 'd'] (by decide) rfl (by decide),
   (claim9_session [Red, Red, Red, Red, Red]).2.2
     [['b', 'l', 'u', 'e', ' ', 'r', 'e', 'd', ' ', 'r', 'e', 'd', ' ',
       'r', 'e', 'd', ' ', 'r', 'e', 'd']]⟩

end Mestersind
